import Mathlib

/-!
Verification development for the Effective Oxidation State (EOS) engine of
chemtools (`chemtools/toolbox/oxidation.py`, class `EOS`).

The Python class is shallowly embedded: numpy arrays become nested lists of
rationals, the external collaborators (orbital amplitude provider, fragment
condensation operator, and the numerical library's singular-value routine)
become function-valued fields / parameters, exceptions become `Except`,
and the mutable `self._frags` attribute becomes explicit state passing.
-/

namespace ChemTools

/-- A scalar field sampled on the molecular grid points (one value per point).
Grid values are modelled over `ℚ` so that everything is executable. -/
abbrev GridField := List ℚ

/-- A fragment list: each fragment is a list of atom indices. -/
abbrev Frags := List (List ℕ)

/-- The per-fragment overlap tensor `arr` of `compute_fragment_overlap`:
one `ne × ne` matrix (nested lists) per fragment. -/
abbrev Arr := List (List (List ℚ))

/-- Python exceptions that the embedded code can raise. -/
inductive PyErr where
  /-- `raise NotImplementedError('Not clear what to do here!')` (line 84). -/
  | notImplementedError
  /-- out-of-range sequence access (Python `IndexError`). -/
  | indexError
deriving DecidableEq

/-- The part of the `Molecule` wrapper that the `EOS` class consumes:
atomic numbers, declared (alpha, beta) electron counts, and the orbital
amplitude provider.  `compute_molecular_orbital(self.grid.points, spin).T`
is modelled with the fixed grid points folded in: for each spin tag it
returns the list of orbitals, each a `GridField`. -/
structure Molecule where
  numbers : List ℕ
  nelectrons : ℕ × ℕ
  computeMolecularOrbital : String → List GridField

/-- The part of the `DensPart` wrapper that the `EOS` class consumes: the
fragment condensation operator `condense_to_fragments(field, fragments,
w_power)`, returning one scalar per fragment. -/
structure DensPart where
  condense_to_fragments : GridField → Frags → ℕ → List ℚ

/-- The `EOS` object: `molecule`, `part`, and the mutable attribute
`self._frags` (initially `None`). The `grid` field is folded into
`Molecule.computeMolecularOrbital`. -/
structure EOS where
  molecule : Molecule
  part : DensPart
  frags : Option Frags

instance {ε α : Type} [DecidableEq ε] [DecidableEq α] : DecidableEq (Except ε α) := fun x y =>
  match x, y with
  | .error e, .error f =>
    if h : e = f then isTrue (congrArg Except.error h)
    else isFalse fun hc => h (Except.error.inj hc)
  | .error _, .ok _ => isFalse fun hc => Except.noConfusion hc
  | .ok _, .error _ => isFalse fun hc => Except.noConfusion hc
  | .ok a, .ok b =>
    if h : a = b then isTrue (congrArg Except.ok h)
    else isFalse fun hc => h (Except.ok.inj hc)

/-- Python sequence indexing `l[i]`: raises `IndexError` when out of range. -/
def pyGet {α : Type} (l : List α) (i : ℕ) : Except PyErr α :=
  match l[i]? with
  | some v => .ok v
  | none => .error .indexError

/-- `itertools.combinations_with_replacement(range(n), 2)`: all pairs
`(i, j)` with `i ≤ j < n`, in lexicographic order. -/
def cwr2 (n : ℕ) : List (ℕ × ℕ) :=
  (List.range n).flatMap fun i => (List.range (n - i)).map fun k => (i, i + k)

/-- The spin dispatch of `compute_fragment_overlap` (lines 79-84):
`'a'` selects the declared alpha electron count, `'b'` the beta count, and
any other tag raises `NotImplementedError` before any computation. -/
def spinNe (mol : Molecule) (spin : String) : Except PyErr ℕ :=
  if spin = "a" then .ok mol.nelectrons.1
  else if spin = "b" then .ok mol.nelectrons.2
  else .error .notImplementedError

/-- Lines 87-90: `fragments is None` defaults to one singleton fragment per
atom, in atom-index order. -/
def defaultFrags (mol : Molecule) : Frags :=
  (List.range mol.numbers.length).map fun index => [index]

/-- The fragment list actually used by `compute_fragment_overlap`. -/
def fragsOf (fragments : Option Frags) (mol : Molecule) : Frags :=
  match fragments with
  | none => defaultFrags mol
  | some fs => fs

/-- `M.set i ((M.getD i []).set j v)`: the write `M[i][j] = v` on a nested
list (in-range in all uses below). -/
def setEntry (M : List (List ℚ)) (i j : ℕ) (v : ℚ) : List (List ℚ) :=
  M.set i ((M.getD i []).set j v)

/-- The two numpy writes `arr[x][i][j] = v; arr[x][j][i] = v` (lines 100-101). -/
def writeSym (arr : Arr) (x i j : ℕ) (v : ℚ) : Arr :=
  arr.set x (setEntry (setEntry (arr.getD x []) i j v) j i v)

/-- The inner loop `for x in range(len(frags)): arr[x][i][j] = qij[x];
arr[x][j][i] = qij[x]` (lines 99-101); `qij[x]` can raise `IndexError`. -/
def writeQ (F : ℕ) (qij : List ℚ) (i j : ℕ) (arr : Arr) : Except PyErr Arr :=
  (List.range F).foldlM (fun arr x => (pyGet qij x).map fun v => writeSym arr x i j v) arr

/-- One iteration of the condensation loop (lines 97-101) for the orbital
pair `p = (i, j)`, threading the tensor and recording the
`condense_to_fragments` call made as `(i, j, w_power)`. -/
def overlapStep (part : DensPart) (orbitals : List GridField) (frags : Frags)
    (acc : Arr × List (ℕ × ℕ × ℕ)) (p : ℕ × ℕ) : Except PyErr (Arr × List (ℕ × ℕ × ℕ)) := do
  let oi ← pyGet orbitals p.1
  let oj ← pyGet orbitals p.2
  let arr ← writeQ frags.length
    (part.condense_to_fragments (List.zipWith (· * ·) oi oj) frags 2) p.1 p.2 acc.1
  pure (arr, acc.2 ++ [(p.1, p.2, 2)])

/-- The condensation loop of `compute_fragment_overlap` (lines 95-101):
start from `np.zeros((len(frags), ne, ne))` and process every orbital pair
from `itertools.combinations_with_replacement(range(ne), 2)`.  The second
component records the `condense_to_fragments` calls made. -/
def overlapLoop (part : DensPart) (orbitals : List GridField) (frags : Frags) (ne : ℕ) :
    Except PyErr (Arr × List (ℕ × ℕ × ℕ)) :=
  (cwr2 ne).foldlM (overlapStep part orbitals frags)
    (List.replicate frags.length (List.replicate ne (List.replicate ne (0 : ℚ))), [])

/-- `EOS.compute_fragment_overlap` (lines 76-103), instrumented with the
list of `condense_to_fragments` calls made.  Returns the tensor together
with the updated object (`self._frags` is assigned on lines 87-90). -/
def computeFragmentOverlapT (E : EOS) (fragments : Option Frags) (spin : String) :
    Except PyErr ((Arr × List (ℕ × ℕ × ℕ)) × EOS) := do
  let ne ← spinNe E.molecule spin
  let r ← overlapLoop E.part (E.molecule.computeMolecularOrbital spin)
    (fragsOf fragments E.molecule) ne
  pure (r, { E with frags := some (fragsOf fragments E.molecule) })

/-- `EOS.compute_fragment_overlap` (lines 76-103): the returned tensor and
the updated object, without the instrumentation trace. -/
def computeFragmentOverlap (E : EOS) (fragments : Option Frags) (spin : String) :
    Except PyErr (Arr × EOS) :=
  (computeFragmentOverlapT E fragments spin).map fun r => (r.1.1, r.2)

/-- `EOS.compute_fragment_occupation` (lines 105-123): the overlap tensor is
decomposed by `np.linalg.svd`, retaining the singular values only.  The
singular-value routine is an external library collaborator and is a
parameter `svd` of the embedding; batched numpy SVD applies it to each
fragment's matrix.  The `print` statements are side effects with no data
flow and are not modelled. -/
def computeFragmentOccupation (svd : List (List ℚ) → List ℚ) (E : EOS)
    (fragments : Option Frags) (spin : String) :
    Except PyErr (List (List ℚ) × EOS) := do
  let r ← computeFragmentOverlap E fragments spin
  pure (r.1.map svd, r.2)

/-- Line 136: `[(s, i) for i, row in enumerate(s_a) for s in row]` — flatten
the per-fragment occupation arrays into (value, fragment-id) pairs in
enumeration order. -/
def flattenEnum (s : List (List ℚ)) : List (ℚ × ℕ) :=
  (s.enum.map fun p => p.2.map fun v => (v, p.1)).flatten

/-- The order by which Python's `sorted(pairs, reverse=True)` ranks
`(value, fragment-id)` tuples: reversed lexicographic comparison, i.e.
`a` precedes `b` when `a` has the larger value, or equal values and the
larger (or equal) fragment id. -/
def geLexQN (a b : ℚ × ℕ) : Prop :=
  b.1 < a.1 ∨ (a.1 = b.1 ∧ b.2 ≤ a.2)

instance : DecidableRel geLexQN := fun a b =>
  inferInstanceAs (Decidable (b.1 < a.1 ∨ (a.1 = b.1 ∧ b.2 ≤ a.2)))

/-- `sorted(pairs, reverse=True)` (lines 136-137): a stable sort by
descending lexicographic tuple order, modelled by insertion sort. -/
def sortedDesc (l : List (ℚ × ℕ)) : List (ℚ × ℕ) :=
  l.insertionSort geLexQN

/-- Lines 156-157: `[occs[:n].count(index) for index in range(F)]` — the
per-fragment assignment counts among the top-`n` ranked entries. -/
def occsFrag (occs : List ℕ) (n F : ℕ) : List ℕ :=
  (List.range F).map fun index => (occs.take n).count index

/-- Lines 159-160 of `compute_oxidation_state`: summed nuclear charges per
fragment minus the per-fragment alpha and beta assignment counts.  The
assignment counts are those of lines 136-157: flatten and rank the
occupation arrays (`sortedDesc`, `flattenEnum`), project to fragment ids,
and count the top-`n` entries per fragment (`occsFrag`). -/
def oxidationFromOccupations (numbers : List ℕ) (nalpha nbeta : ℕ)
    (s_a s_b : List (List ℚ)) (frags : Frags) : Except PyErr (List ℤ) := do
  let z_frag ← frags.mapM fun frag => (frag.mapM (pyGet numbers)).map List.sum
  pure (List.zipWith (fun (z : ℕ) (ab : ℕ × ℕ) => (z : ℤ) - (ab.1 : ℤ) - (ab.2 : ℤ)) z_frag
    ((occsFrag ((sortedDesc (flattenEnum s_a)).map Prod.snd) nalpha frags.length).zip
      (occsFrag ((sortedDesc (flattenEnum s_b)).map Prod.snd) nbeta frags.length)))

/-- `EOS.compute_oxidation_state` (lines 125-240, live code only): run the
occupation pipeline for each spin, rank the flattened occupations, count
the top-`n` entries per fragment, and subtract from the summed nuclear
charges.  The `self._frags` read on lines 156-159 sees the value stored by
the second occupation call.  The result is the numpy array of line 160:
one signed integer per fragment (no index pairing in the live code). -/
def computeOxidationState (svd : List (List ℚ) → List ℚ) (E : EOS)
    (fragments : Option Frags) : Except PyErr (List ℤ) := do
  let ra ← computeFragmentOccupation svd E fragments "a"
  let rb ← computeFragmentOccupation svd ra.2 fragments "b"
  oxidationFromOccupations rb.2.molecule.numbers E.molecule.nelectrons.1
    E.molecule.nelectrons.2 ra.1 rb.1 (rb.2.frags.getD [])

/-- The default value of the `spin` parameter of `compute_fragment_overlap`
and `compute_fragment_occupation` (lines 76 and 105). -/
def defaultSpin : String := "ab"

/-- Entry read `M[i][j]` of a nested-list matrix (`0` outside the stored shape). -/
def entry (M : List (List ℚ)) (i j : ℕ) : ℚ :=
  (M.getD i []).getD j 0

/-- Entry read `arr[x][i][j]` of the overlap tensor. -/
def entryA (arr : Arr) (x i j : ℕ) : ℚ :=
  entry (arr.getD x []) i j

/-- The tensor has numpy shape `(F, n, n)`. -/
def Dims (arr : Arr) (F n : ℕ) : Prop :=
  arr.length = F ∧ ∀ M ∈ arr, M.length = n ∧ ∀ r ∈ M, r.length = n

/-- Every fragment matrix of the tensor is symmetric. -/
def SymA (arr : Arr) : Prop :=
  ∀ x a b, entryA arr x a b = entryA arr x b a

instance : IsTotal (ℚ × ℕ) geLexQN :=
  ⟨fun a b => by
    unfold geLexQN
    rcases lt_trichotomy a.1 b.1 with h | h | h
    · exact Or.inr (Or.inl h)
    · rcases Nat.le_total b.2 a.2 with h2 | h2
      · exact Or.inl (Or.inr ⟨h, h2⟩)
      · exact Or.inr (Or.inr ⟨h.symm, h2⟩)
    · exact Or.inl (Or.inl h)⟩

instance : IsTrans (ℚ × ℕ) geLexQN :=
  ⟨fun a b c hab hbc => by
    unfold geLexQN at *
    rcases hab with h1 | ⟨h1, h1'⟩
    · rcases hbc with h2 | ⟨h2, _⟩
      · exact Or.inl (h2.trans h1)
      · exact Or.inl (by rw [← h2]; exact h1)
    · rcases hbc with h2 | ⟨h2, h2'⟩
      · exact Or.inl (by rw [h1]; exact h2)
      · exact Or.inr ⟨h1.trans h2, h2'.trans h1'⟩⟩

/-- A concrete two-atom molecule used for witnesses: two hydrogens, one
alpha and one beta electron, one occupied orbital sampled on a one-point
grid with amplitude `2`. -/
def molC : Molecule :=
  { numbers := [1, 1]
    nelectrons := (1, 1)
    computeMolecularOrbital := fun _ => [[2]] }

/-- A concrete condensation operator for witnesses: every fragment receives
the constant value `1`. -/
def partC : DensPart :=
  { condense_to_fragments := fun _ frags _ => frags.map fun _ => 1 }

/-- A concrete `EOS` object for witnesses. -/
def EC : EOS := { molecule := molC, part := partC, frags := none }

/-- A concrete singular-value routine for witnesses: every singular value is
`1` (it satisfies the numpy contract: correct length, non-negative,
non-increasing). -/
def svdC : List (List ℚ) → List ℚ := fun M => List.replicate M.length 1

/-- The state of the concrete witness object after a call that stored the
two-singleton partition. -/
def ECdone : EOS := { EC with frags := some [[0], [1]] }

/-- A concrete one-atom molecule whose orbital provider returns two
orbitals although only one alpha electron is declared. -/
def molC2 : Molecule :=
  { numbers := [1]
    nelectrons := (1, 1)
    computeMolecularOrbital := fun _ => [[2], [5]] }

/-- A concrete `EOS` object whose orbital provider disagrees with the
declared electron count. -/
def EC2 : EOS := { molecule := molC2, part := partC, frags := none }

/-- A concrete `EOS` object with an empty orbital provider (no orbitals at
all) but one declared alpha electron. -/
def EC0 : EOS :=
  { molecule :=
      { numbers := [1]
        nelectrons := (1, 1)
        computeMolecularOrbital := fun _ => [] }
    part := partC
    frags := none }

/-- The same `EOS` object with the orbital provider truncated to its first
`ne` orbitals. -/
def truncOrbitals (E : EOS) (ne : ℕ) : EOS :=
  { E with molecule := { E.molecule with computeMolecularOrbital :=
      fun sp => (E.molecule.computeMolecularOrbital sp).take ne } }

/-! ### Generic helper lemmas -/

theorem pyGet_eq_ok {α : Type} {l : List α} {i : ℕ} {v : α} :
    pyGet l i = .ok v ↔ l[i]? = some v := by
  unfold pyGet
  cases h : l[i]? <;> simp [h]

theorem pyGet_ok_iff {α : Type} (l : List α) (i : ℕ) :
    (∃ v, pyGet l i = .ok v) ↔ i < l.length := by
  unfold pyGet
  cases h : l[i]? with
  | none =>
    have hge : l.length ≤ i := List.getElem?_eq_none_iff.1 h
    simp [h]
    omega
  | some v =>
    have hlt : i < l.length := by
      by_contra hge
      rw [List.getElem?_eq_none_iff.2 (le_of_not_lt hge)] at h
      cases h
    simp [h, hlt]

theorem pyGet_error {α : Type} {l : List α} {i : ℕ} {e : PyErr} :
    pyGet l i = .error e → e = .indexError := by
  unfold pyGet
  cases h : l[i]? <;> simp [h]
  intro hc
  exact hc.symm

theorem except_bind_ok {ε α β : Type} (a : α) (f : α → Except ε β) :
    (Except.ok a >>= f) = f a := rfl

theorem except_bind_error {ε α β : Type} (e : ε) (f : α → Except ε β) :
    ((Except.error e : Except ε α) >>= f) = .error e := rfl

theorem foldlM_ok_invariant {ε α β : Type} (P : α → Prop) (f : α → β → Except ε α) :
    ∀ (l : List β) (a₀ a₁ : α), List.foldlM f a₀ l = .ok a₁ → P a₀ →
      (∀ a b a', b ∈ l → P a → f a b = .ok a' → P a') → P a₁ := by
  intro l
  induction l with
  | nil =>
    intro a₀ a₁ h h₀ _
    rw [List.foldlM_nil] at h
    cases h
    exact h₀
  | cons x xs ih =>
    intro a₀ a₁ h h₀ hf
    rw [List.foldlM_cons] at h
    cases hfx : f a₀ x with
    | error e => rw [hfx, except_bind_error] at h; cases h
    | ok a' =>
      rw [hfx, except_bind_ok] at h
      exact ih a' a₁ h (hf a₀ x a' (List.mem_cons_self _ _) h₀ hfx)
        fun a b a'' hb => hf a b a'' (List.mem_cons_of_mem _ hb)

theorem foldlM_congr {ε α β : Type} {f g : α → β → Except ε α} :
    ∀ {l : List β}, (∀ a b, b ∈ l → f a b = g a b) → ∀ a₀ : α,
      List.foldlM f a₀ l = List.foldlM g a₀ l := by
  intro l
  induction l with
  | nil => intro _ a₀; rfl
  | cons x xs ih =>
    intro h a₀
    rw [List.foldlM_cons, List.foldlM_cons, h a₀ x (List.mem_cons_self _ _)]
    cases g a₀ x with
    | error e => rfl
    | ok a' =>
      rw [except_bind_ok, except_bind_ok]
      exact ih (fun a b hb => h a b (List.mem_cons_of_mem _ hb)) a'

theorem foldlM_ok_iff {ε α β : Type} (f : α → β → Except ε α) (Q : β → Prop) :
    ∀ (l : List β), (∀ a b, b ∈ l → ((∃ a', f a b = .ok a') ↔ Q b)) → ∀ a₀ : α,
      (∃ r, List.foldlM f a₀ l = .ok r) ↔ ∀ b ∈ l, Q b := by
  intro l
  induction l with
  | nil =>
    intro _ a₀
    rw [List.foldlM_nil]
    simp
    exact ⟨a₀, rfl⟩
  | cons x xs ih =>
    intro hf a₀
    rw [List.foldlM_cons]
    constructor
    · rintro ⟨r, hr⟩ b hb
      cases hfx : f a₀ x with
      | error e => rw [hfx, except_bind_error] at hr; cases hr
      | ok a' =>
        rcases List.mem_cons.1 hb with rfl | hb'
        · exact (hf a₀ b (List.mem_cons_self _ _)).1 ⟨a', hfx⟩
        · rw [hfx, except_bind_ok] at hr
          exact (ih (fun a c hc => hf a c (List.mem_cons_of_mem _ hc)) a').1 ⟨r, hr⟩ b hb'
    · intro hQ
      obtain ⟨a', hfx⟩ := (hf a₀ x (List.mem_cons_self _ _)).2 (hQ x (List.mem_cons_self _ _))
      rw [hfx, except_bind_ok]
      exact (ih (fun a c hc => hf a c (List.mem_cons_of_mem _ hc)) a').2
        fun b hb => hQ b (List.mem_cons_of_mem _ hb)

theorem foldlM_error_val {ε α β : Type} (f : α → β → Except ε α) (e₀ : ε) :
    ∀ (l : List β), (∀ a b e, b ∈ l → f a b = .error e → e = e₀) →
      ∀ (a₀ : α) (e : ε), List.foldlM f a₀ l = .error e → e = e₀ := by
  intro l
  induction l with
  | nil => intro _ a₀ e h; rw [List.foldlM_nil] at h; cases h
  | cons x xs ih =>
    intro hf a₀ e h
    rw [List.foldlM_cons] at h
    cases hfx : f a₀ x with
    | error e' =>
      rw [hfx, except_bind_error] at h
      cases h
      exact hf a₀ x e (List.mem_cons_self _ _) hfx
    | ok a' =>
      rw [hfx, except_bind_ok] at h
      exact ih (fun a b e' hb => hf a b e' (List.mem_cons_of_mem _ hb)) a' e h

/-! ### Nested-list matrix lemmas -/

theorem getD_set_eq {α : Type} (l : List α) (i : ℕ) (v d : α) (h : i < l.length) :
    (l.set i v).getD i d = v := by
  rw [List.getD_eq_getElem?_getD, List.getElem?_set_self h]
  rfl

theorem getD_set_ne {α : Type} (l : List α) {i j : ℕ} (v d : α) (h : i ≠ j) :
    (l.set i v).getD j d = l.getD j d := by
  rw [List.getD_eq_getElem?_getD, List.getElem?_set_ne h, ← List.getD_eq_getElem?_getD]

theorem getD_mem {α : Type} (l : List α) (i : ℕ) (d : α) (h : i < l.length) :
    l.getD i d ∈ l := by
  rw [List.getD_eq_getElem _ _ h]
  exact List.getElem_mem h

theorem getD_replicate_d {α : Type} (k : ℕ) (c d : α) (x : ℕ) :
    (List.replicate k c).getD x d = if x < k then c else d := by
  rw [List.getD_eq_getElem?_getD, List.getElem?_replicate]
  split <;> rfl

theorem entry_setEntry (M : List (List ℚ)) (i j : ℕ) (v : ℚ) (a b : ℕ) :
    entry (setEntry M i j v) a b =
      if a = i ∧ b = j ∧ i < M.length ∧ j < (M.getD i []).length then v
      else entry M a b := by
  unfold entry setEntry
  by_cases hi : i < M.length
  · by_cases hai : a = i
    · subst hai
      rw [getD_set_eq _ _ _ _ hi]
      by_cases hbj : b = j
      · subst hbj
        by_cases hj : b < (M.getD a []).length
        · have hja : b < M[a].length := by
            rw [← List.getD_eq_getElem M [] hi]
            exact hj
          rw [getD_set_eq _ _ _ _ hj]
          simp [hi, hj, hja]
        · have hja : ¬b < M[a].length := by
            rw [← List.getD_eq_getElem M [] hi]
            exact hj
          rw [List.set_eq_of_length_le (le_of_not_lt hj)]
          simp [hi, hj, hja]
      · rw [getD_set_ne _ _ _ fun hh => hbj hh.symm]
        simp [hbj]
    · rw [getD_set_ne _ _ _ fun hh => hai hh.symm]
      simp [hai]
  · rw [List.set_eq_of_length_le (le_of_not_lt hi)]
    simp [hi]

theorem entryA_set (arr : Arr) (x : ℕ) (M' : List (List ℚ)) (y a b : ℕ) :
    entryA (arr.set x M') y a b =
      if y = x ∧ x < arr.length then entry M' a b else entryA arr y a b := by
  unfold entryA
  by_cases hx : x < arr.length
  · by_cases hyx : y = x
    · subst hyx
      rw [getD_set_eq _ _ _ _ hx]
      simp [hx]
    · rw [getD_set_ne _ _ _ fun hh => hyx hh.symm]
      simp [hyx]
  · rw [List.set_eq_of_length_le (le_of_not_lt hx)]
    simp [hx]

theorem dims_mat_setEntry {M : List (List ℚ)} {n : ℕ}
    (hM : M.length = n ∧ ∀ r ∈ M, r.length = n) (p q : ℕ) (v : ℚ) :
    (setEntry M p q v).length = n ∧ ∀ r ∈ setEntry M p q v, r.length = n := by
  obtain ⟨h1, h2⟩ := hM
  unfold setEntry
  by_cases hp : p < M.length
  · refine ⟨by rw [List.length_set]; exact h1, fun r hr => ?_⟩
    rcases List.mem_or_eq_of_mem_set hr with hr' | rfl
    · exact h2 r hr'
    · rw [List.length_set]
      exact h2 _ (getD_mem M p [] hp)
  · rw [List.set_eq_of_length_le (le_of_not_lt hp)]
    exact ⟨h1, h2⟩

theorem dims_writeSym {arr : Arr} {F n : ℕ} (hd : Dims arr F n) (x i j : ℕ) (v : ℚ) :
    Dims (writeSym arr x i j v) F n := by
  obtain ⟨hlen, hmem⟩ := hd
  unfold writeSym
  by_cases hx : x < arr.length
  · refine ⟨by rw [List.length_set]; exact hlen, fun M hM => ?_⟩
    rcases List.mem_or_eq_of_mem_set hM with hM' | rfl
    · exact hmem M hM'
    · exact dims_mat_setEntry (dims_mat_setEntry (hmem _ (getD_mem arr x [] hx)) i j v) j i v
  · rw [List.set_eq_of_length_le (le_of_not_lt hx)]
    exact ⟨hlen, hmem⟩

theorem dims_zeros (F n : ℕ) :
    Dims (List.replicate F (List.replicate n (List.replicate n (0 : ℚ)))) F n := by
  refine ⟨List.length_replicate _ _, fun M hM => ?_⟩
  rw [List.eq_of_mem_replicate hM]
  refine ⟨List.length_replicate _ _, fun r hr => ?_⟩
  rw [List.eq_of_mem_replicate hr]
  exact List.length_replicate _ _

theorem entry_zeros (n a b : ℕ) :
    entry (List.replicate n (List.replicate n (0 : ℚ))) a b = 0 := by
  unfold entry
  rw [getD_replicate_d]
  by_cases ha : a < n
  · rw [if_pos ha, getD_replicate_d]
    split <;> rfl
  · rw [if_neg ha]
    rfl

theorem symA_zeros (F n : ℕ) :
    SymA (List.replicate F (List.replicate n (List.replicate n (0 : ℚ)))) := by
  intro x a b
  unfold entryA
  rw [getD_replicate_d]
  by_cases hx : x < F
  · rw [if_pos hx, entry_zeros, entry_zeros]
  · rw [if_neg hx]
    rfl

theorem entryA_writeSym {arr : Arr} {F n : ℕ} (hd : Dims arr F n)
    {i j : ℕ} (hi : i < n) (hj : j < n) (x : ℕ) (v : ℚ) (y a b : ℕ) :
    entryA (writeSym arr x i j v) y a b =
      if y = x ∧ x < F ∧ ((a = j ∧ b = i) ∨ (a = i ∧ b = j)) then v
      else entryA arr y a b := by
  obtain ⟨hlen, hmem⟩ := hd
  unfold writeSym
  rw [entryA_set]
  by_cases hx : x < arr.length
  · have hM₀ : (arr.getD x []).length = n ∧ ∀ r ∈ arr.getD x [], r.length = n :=
      hmem _ (getD_mem arr x [] hx)
    have hX := dims_mat_setEntry hM₀ i j v
    have hrowX : ((setEntry (arr.getD x []) i j v).getD j []).length = n :=
      hX.2 _ (getD_mem _ j [] (by rw [hX.1]; exact hj))
    have hrowM : ((arr.getD x []).getD i []).length = n :=
      hM₀.2 _ (getD_mem _ i [] (by rw [hM₀.1]; exact hi))
    rw [entry_setEntry, entry_setEntry]
    have hxF : x < F := hlen ▸ hx
    by_cases hyx : y = x
    · subst hyx
      rw [if_pos ⟨rfl, hx⟩]
      by_cases h1 : a = j ∧ b = i
      · rw [if_pos ⟨h1.1, h1.2, by rw [hX.1]; exact hj, by rw [hrowX]; exact hi⟩,
          if_pos ⟨rfl, hxF, Or.inl h1⟩]
      · rw [if_neg fun hc => h1 ⟨hc.1, hc.2.1⟩]
        by_cases h2 : a = i ∧ b = j
        · rw [if_pos ⟨h2.1, h2.2, by rw [hM₀.1]; exact hi, by rw [hrowM]; exact hj⟩,
            if_pos ⟨rfl, hxF, Or.inr h2⟩]
        · rw [if_neg fun hc => h2 ⟨hc.1, hc.2.1⟩,
            if_neg fun hc => hc.2.2.elim (fun hc1 => h1 hc1) fun hc2 => h2 hc2]
          rfl
    · rw [if_neg fun hc => hyx hc.1, if_neg fun hc => hyx hc.1]
  · have hxF : ¬x < F := by rw [← hlen]; exact hx
    rw [if_neg fun hc => hx hc.2, if_neg fun hc => hxF hc.2.1]

theorem symA_writeSym {arr : Arr} {F n : ℕ} (hd : Dims arr F n) (hs : SymA arr)
    {i j : ℕ} (hi : i < n) (hj : j < n) (x : ℕ) (v : ℚ) :
    SymA (writeSym arr x i j v) := by
  intro y a b
  have hiff : (y = x ∧ x < F ∧ ((b = j ∧ a = i) ∨ (b = i ∧ a = j))) ↔
      (y = x ∧ x < F ∧ ((a = j ∧ b = i) ∨ (a = i ∧ b = j))) := by tauto
  rw [entryA_writeSym hd hi hj x v y a b, entryA_writeSym hd hi hj x v y b a]
  by_cases h : y = x ∧ x < F ∧ ((a = j ∧ b = i) ∨ (a = i ∧ b = j))
  · rw [if_pos h, if_pos (hiff.2 h)]
  · rw [if_neg h, if_neg fun hc => h (hiff.1 hc), hs y a b]

/-! ### Condensation-loop lemmas -/

theorem except_map_ok {ε α β : Type} (f : α → β) (v : α) :
    (Except.ok v : Except ε α).map f = .ok (f v) := rfl

theorem except_map_error {ε α β : Type} (f : α → β) (e : ε) :
    (Except.error e : Except ε α).map f = .error e := rfl

theorem mem_cwr2 {n : ℕ} {p : ℕ × ℕ} : p ∈ cwr2 n ↔ p.1 ≤ p.2 ∧ p.2 < n := by
  unfold cwr2
  rw [List.mem_flatMap]
  constructor
  · rintro ⟨i, hi, hp⟩
    rw [List.mem_map] at hp
    obtain ⟨k, hk, rfl⟩ := hp
    rw [List.mem_range] at hi hk
    exact ⟨Nat.le_add_right _ _, by omega⟩
  · rintro ⟨h1, h2⟩
    refine ⟨p.1, List.mem_range.2 (lt_of_le_of_lt h1 h2), List.mem_map.2
      ⟨p.2 - p.1, List.mem_range.2 (by omega), ?_⟩⟩
    show (p.1, p.1 + (p.2 - p.1)) = p
    rw [Nat.add_sub_cancel' h1]

theorem writeQ_ok_dims_sym {F n : ℕ} {qij : List ℚ} {i j : ℕ} {arr arr' : Arr}
    (h : writeQ F qij i j arr = .ok arr') (hd : Dims arr F n) (hs : SymA arr)
    (hi : i < n) (hj : j < n) :
    Dims arr' F n ∧ SymA arr' := by
  unfold writeQ at h
  refine foldlM_ok_invariant (fun a => Dims a F n ∧ SymA a) _ _ arr arr' h ⟨hd, hs⟩ ?_
  intro a x a' _ hP hstep
  cases hq : pyGet qij x with
  | error e => rw [hq, except_map_error] at hstep; cases hstep
  | ok v =>
    rw [hq, except_map_ok] at hstep
    cases hstep
    exact ⟨dims_writeSym hP.1 x i j v, symA_writeSym hP.1 hP.2 hi hj x v⟩

theorem writeQ_ok_iff (F : ℕ) (qij : List ℚ) (i j : ℕ) (arr : Arr) :
    (∃ r, writeQ F qij i j arr = .ok r) ↔ F ≤ qij.length := by
  unfold writeQ
  rw [foldlM_ok_iff _ (fun x => x < qij.length) _ ?_ arr]
  · constructor
    · intro h
      by_contra hF
      exact absurd (h qij.length (List.mem_range.2 (by omega))) (by omega)
    · intro hF b hb
      rw [List.mem_range] at hb
      omega
  · intro a b _
    cases hq : pyGet qij b with
    | error e =>
      rw [except_map_error]
      constructor
      · rintro ⟨a', ha'⟩; cases ha'
      · intro hb
        obtain ⟨v, hv⟩ := (pyGet_ok_iff qij b).2 hb
        rw [hq] at hv; cases hv
    | ok v =>
      rw [except_map_ok]
      constructor
      · intro _
        exact (pyGet_ok_iff qij b).1 ⟨_, hq⟩
      · intro _
        exact ⟨_, rfl⟩

theorem writeQ_error {F : ℕ} {qij : List ℚ} {i j : ℕ} {arr : Arr} :
    ∀ e, writeQ F qij i j arr = .error e → e = .indexError := by
  unfold writeQ
  intro e h
  refine foldlM_error_val _ PyErr.indexError _ ?_ arr e h
  intro a b e' _ hstep
  cases hq : pyGet qij b with
  | error e'' =>
    rw [hq, except_map_error] at hstep
    cases hstep
    exact pyGet_error hq
  | ok v => rw [hq, except_map_ok] at hstep; cases hstep

theorem pyGet_getD {α : Type} {l : List α} {i : ℕ} {v : α} (h : pyGet l i = .ok v) (d : α) :
    l.getD i d = v := by
  rw [List.getD_eq_getElem?_getD, pyGet_eq_ok.1 h]
  rfl

theorem overlapStep_ok_trace {part : DensPart} {orbitals : List GridField} {frags : Frags}
    {acc r : Arr × List (ℕ × ℕ × ℕ)} {p : ℕ × ℕ}
    (h : overlapStep part orbitals frags acc p = .ok r) :
    r.2 = acc.2 ++ [(p.1, p.2, 2)] := by
  unfold overlapStep at h
  cases h1 : pyGet orbitals p.1 <;> rw [h1] at h
  · rw [except_bind_error] at h; cases h
  · rw [except_bind_ok] at h
    cases h2 : pyGet orbitals p.2 <;> rw [h2] at h
    · rw [except_bind_error] at h; cases h
    · rw [except_bind_ok] at h
      cases h3 : writeQ frags.length _ p.1 p.2 acc.1 <;> rw [h3] at h
      · rw [except_bind_error] at h; cases h
      · rw [except_bind_ok] at h
        cases h
        rfl

theorem overlapStep_ok_arr {part : DensPart} {orbitals : List GridField} {frags : Frags}
    {acc r : Arr × List (ℕ × ℕ × ℕ)} {p : ℕ × ℕ} {F n : ℕ}
    (h : overlapStep part orbitals frags acc p = .ok r)
    (hd : Dims acc.1 F n) (hs : SymA acc.1) (hF : frags.length = F)
    (hi : p.1 < n) (hj : p.2 < n) :
    Dims r.1 F n ∧ SymA r.1 := by
  unfold overlapStep at h
  cases h1 : pyGet orbitals p.1 <;> rw [h1] at h
  · rw [except_bind_error] at h; cases h
  · rw [except_bind_ok] at h
    cases h2 : pyGet orbitals p.2 <;> rw [h2] at h
    · rw [except_bind_error] at h; cases h
    · rw [except_bind_ok] at h
      cases h3 : writeQ frags.length _ p.1 p.2 acc.1 <;> rw [h3] at h
      · rw [except_bind_error] at h; cases h
      · rw [except_bind_ok] at h
        cases h
        exact writeQ_ok_dims_sym (hF ▸ h3) hd hs hi hj

theorem overlapStep_error {part : DensPart} {orbitals : List GridField} {frags : Frags}
    {acc : Arr × List (ℕ × ℕ × ℕ)} {p : ℕ × ℕ} :
    ∀ e, overlapStep part orbitals frags acc p = .error e → e = .indexError := by
  intro e h
  unfold overlapStep at h
  cases h1 : pyGet orbitals p.1 <;> rw [h1] at h
  · rw [except_bind_error] at h
    cases h
    exact pyGet_error h1
  · rw [except_bind_ok] at h
    cases h2 : pyGet orbitals p.2 <;> rw [h2] at h
    · rw [except_bind_error] at h
      cases h
      exact pyGet_error h2
    · rw [except_bind_ok] at h
      cases h3 : writeQ frags.length _ p.1 p.2 acc.1 <;> rw [h3] at h
      · rw [except_bind_error] at h
        cases h
        exact writeQ_error _ h3
      · rw [except_bind_ok] at h
        cases h

theorem overlapStep_ok_iff (part : DensPart) (orbitals : List GridField) (frags : Frags)
    (acc : Arr × List (ℕ × ℕ × ℕ)) (p : ℕ × ℕ) :
    (∃ r, overlapStep part orbitals frags acc p = .ok r) ↔
      (p.1 < orbitals.length ∧ p.2 < orbitals.length ∧
        frags.length ≤ (part.condense_to_fragments
          (List.zipWith (· * ·) (orbitals.getD p.1 []) (orbitals.getD p.2 [])) frags 2).length) := by
  unfold overlapStep
  cases h1 : pyGet orbitals p.1 with
  | error e =>
    rw [except_bind_error]
    constructor
    · rintro ⟨r, hr⟩
      cases hr
    · rintro ⟨ha, -, -⟩
      obtain ⟨v, hv⟩ := (pyGet_ok_iff orbitals p.1).2 ha
      rw [h1] at hv
      cases hv
  | ok oi =>
    rw [except_bind_ok]
    have ha : p.1 < orbitals.length := (pyGet_ok_iff orbitals p.1).1 ⟨_, h1⟩
    cases h2 : pyGet orbitals p.2 with
    | error e =>
      rw [except_bind_error]
      constructor
      · rintro ⟨r, hr⟩
        cases hr
      · rintro ⟨-, hb, -⟩
        obtain ⟨v, hv⟩ := (pyGet_ok_iff orbitals p.2).2 hb
        rw [h2] at hv
        cases hv
    | ok oj =>
      rw [except_bind_ok]
      have hb : p.2 < orbitals.length := (pyGet_ok_iff orbitals p.2).1 ⟨_, h2⟩
      rw [pyGet_getD h1 [], pyGet_getD h2 []]
      cases h3 : writeQ frags.length
          (part.condense_to_fragments (List.zipWith (· * ·) oi oj) frags 2) p.1 p.2 acc.1 with
      | error e =>
        rw [except_bind_error]
        constructor
        · rintro ⟨r, hr⟩
          cases hr
        · rintro ⟨-, -, hq⟩
          obtain ⟨r, hr⟩ := (writeQ_ok_iff frags.length _ p.1 p.2 acc.1).2 hq
          rw [h3] at hr
          cases hr
      | ok arr =>
        rw [except_bind_ok]
        refine ⟨fun _ => ⟨ha, hb, ?_⟩, fun _ => ⟨_, rfl⟩⟩
        exact (writeQ_ok_iff frags.length _ p.1 p.2 acc.1).1 ⟨arr, h3⟩

theorem overlapLoop_trace {part : DensPart} {orbitals : List GridField} {frags : Frags} :
    ∀ (L : List (ℕ × ℕ)) (acc r : Arr × List (ℕ × ℕ × ℕ)),
      List.foldlM (overlapStep part orbitals frags) acc L = .ok r →
      r.2 = acc.2 ++ L.map fun p => (p.1, p.2, 2) := by
  intro L
  induction L with
  | nil =>
    intro acc r h
    rw [List.foldlM_nil] at h
    cases h
    simp
  | cons x xs ih =>
    intro acc r h
    rw [List.foldlM_cons] at h
    cases hstep : overlapStep part orbitals frags acc x with
    | error e => rw [hstep, except_bind_error] at h; cases h
    | ok acc' =>
      rw [hstep, except_bind_ok] at h
      rw [ih acc' r h, overlapStep_ok_trace hstep]
      simp

theorem overlapLoop_ok_spec {part : DensPart} {orbitals : List GridField} {frags : Frags}
    {ne : ℕ} {arr : Arr} {tr : List (ℕ × ℕ × ℕ)}
    (h : overlapLoop part orbitals frags ne = .ok (arr, tr)) :
    (Dims arr frags.length ne ∧ SymA arr) ∧ tr = (cwr2 ne).map fun p => (p.1, p.2, 2) := by
  unfold overlapLoop at h
  constructor
  · refine foldlM_ok_invariant (fun a => Dims a.1 frags.length ne ∧ SymA a.1) _ _ _ _ h
      ⟨dims_zeros _ _, symA_zeros _ _⟩ ?_
    intro a p a' hp hP hstep
    rw [mem_cwr2] at hp
    exact overlapStep_ok_arr hstep hP.1 hP.2 rfl (lt_of_le_of_lt hp.1 hp.2) hp.2
  · have := overlapLoop_trace (cwr2 ne) _ _ h
    simpa using this

/-! ### Counting and ranking lemmas -/

theorem sum_map_range {M : Type} [AddCommMonoid M] (g : ℕ → M) :
    ∀ n : ℕ, ((List.range n).map g).sum = ∑ i ∈ Finset.range n, g i := by
  intro n
  induction n with
  | zero => simp
  | succ m ih =>
    rw [List.range_succ, List.map_append, List.sum_append, Finset.sum_range_succ, ih]
    simp

theorem length_cwr2 (n : ℕ) : (cwr2 n).length = n * (n + 1) / 2 := by
  have hsum : ((cwr2 n).length) * 2 = n * (n + 1) := by
    unfold cwr2
    rw [List.length_flatMap]
    have hmap : (List.map (List.length ∘ fun i => (List.range (n - i)).map fun k => (i, i + k))
        (List.range n)) = (List.range n).map fun i => n - i := by
      refine List.map_congr_left fun i _ => ?_
      simp
    rw [hmap, sum_map_range]
    have key : (∑ i ∈ Finset.range n, (n - i)) = ∑ i ∈ Finset.range n, (i + 1) := by
      rw [← Finset.sum_range_reflect]
      refine Finset.sum_congr rfl fun i hi => ?_
      rw [Finset.mem_range] at hi
      omega
    rw [key, Finset.sum_add_distrib, Finset.sum_const, Finset.card_range, smul_eq_mul,
      Nat.add_mul, Finset.sum_range_id_mul_two]
    cases n with
    | zero => rfl
    | succ m =>
      rw [Nat.succ_sub_one]
      ring
  omega

theorem nodup_cwr2 (n : ℕ) : (cwr2 n).Nodup := by
  unfold cwr2
  rw [List.nodup_flatMap]
  constructor
  · intro i _
    refine List.Nodup.map ?_ (List.nodup_range _)
    intro a b hab
    have := congrArg Prod.snd hab
    simpa using this
  · refine (List.pairwise_lt_range n).imp ?_
    intro i i' hii' q hq hq'
    rw [List.mem_map] at hq hq'
    obtain ⟨k, -, rfl⟩ := hq
    obtain ⟨k', -, hk'⟩ := hq'
    have := congrArg Prod.fst hk'
    simp at this
    omega

theorem count_eq_one_of_nodup_mem {α : Type} [BEq α] [LawfulBEq α] :
    ∀ {l : List α} {a : α}, l.Nodup → a ∈ l → l.count a = 1 := by
  intro l
  induction l with
  | nil => intro a _ ha; cases ha
  | cons x xs ih =>
    intro a hn ha
    rw [List.count_cons]
    rcases List.mem_cons.1 ha with rfl | ha'
    · rw [if_pos (beq_self_eq_true a), List.count_eq_zero.2 (List.nodup_cons.1 hn).1]
    · have hxa : ¬(x == a) = true := fun hbeq =>
        (List.nodup_cons.1 hn).1 (by rw [eq_of_beq hbeq]; exact ha')
      rw [ih (List.nodup_cons.1 hn).2 ha', if_neg hxa]

theorem count_cwr2 {n i j : ℕ} (hij : i ≤ j) (hj : j < n) : (cwr2 n).count (i, j) = 1 :=
  count_eq_one_of_nodup_mem (nodup_cwr2 n) (mem_cwr2.2 ⟨hij, hj⟩)

theorem sum_counts_eq_length (F : ℕ) (l : List ℕ) (h : ∀ x ∈ l, x < F) :
    ((List.range F).map fun idx => l.count idx).sum = l.length := by
  rw [sum_map_range]
  induction l with
  | nil => simp
  | cons x xs ih =>
    have hx : x < F := h x (List.mem_cons_self _ _)
    have hcount : ∀ idx ∈ Finset.range F, (x :: xs).count idx
        = xs.count idx + (if idx = x then 1 else 0) := by
      intro idx _
      rw [List.count_cons]
      congr 1
      by_cases hxi : idx = x
      · rw [if_pos hxi, if_pos (beq_iff_eq.2 hxi.symm)]
      · rw [if_neg hxi, if_neg fun hb => hxi (eq_of_beq hb).symm]
    rw [Finset.sum_congr rfl hcount, Finset.sum_add_distrib,
      ih fun y hy => h y (List.mem_cons_of_mem _ hy)]
    have := Finset.sum_ite_eq' (Finset.range F) x fun _ => (1 : ℕ)
    rw [this, if_pos (Finset.mem_range.2 hx), List.length_cons]

theorem mem_flattenEnum_snd_lt {s : List (List ℚ)} {p : ℚ × ℕ} (hp : p ∈ flattenEnum s) :
    p.2 < s.length := by
  unfold flattenEnum at hp
  rw [List.mem_flatten] at hp
  obtain ⟨l, hl, hpl⟩ := hp
  rw [List.mem_map] at hl
  obtain ⟨q, hq, rfl⟩ := hl
  rw [List.mem_map] at hpl
  obtain ⟨v, _, rfl⟩ := hpl
  have hq' := List.mem_enum_iff_getElem?.1 hq
  exact (List.getElem?_eq_some.1 hq').1

theorem length_flattenEnum {s : List (List ℚ)} {N : ℕ} (h : ∀ row ∈ s, row.length = N) :
    (flattenEnum s).length = s.length * N := by
  unfold flattenEnum
  rw [List.length_flatten, List.map_map]
  have hrep : (List.map (List.length ∘ fun p => p.2.map fun v => (v, p.1)) s.enum)
      = List.replicate s.length N := by
    rw [List.eq_replicate_iff]
    refine ⟨by rw [List.length_map, List.enum_length], fun b hb => ?_⟩
    rw [List.mem_map] at hb
    obtain ⟨q, hq, rfl⟩ := hb
    have hq' := List.mem_enum_iff_getElem?.1 hq
    simp only [Function.comp_apply, List.length_map]
    exact h _ (List.getElem?_mem hq')
  rw [hrep, List.sum_replicate, smul_eq_mul]

theorem mem_sortedDesc_snd_lt {s : List (List ℚ)} {p : ℚ × ℕ}
    (hp : p ∈ sortedDesc (flattenEnum s)) : p.2 < s.length :=
  mem_flattenEnum_snd_lt ((List.perm_insertionSort geLexQN (flattenEnum s)).mem_iff.1 hp)

theorem mapM_ok_length {α β : Type} {f : α → Except PyErr β} :
    ∀ {l : List α} {l' : List β}, l.mapM f = .ok l' → l'.length = l.length := by
  intro l
  induction l with
  | nil =>
    intro l' h
    rw [List.mapM_nil] at h
    cases h
    rfl
  | cons x xs ih =>
    intro l' h
    rw [List.mapM_cons] at h
    cases hx : f x <;> rw [hx] at h
    · rw [except_bind_error] at h
      cases h
    · rw [except_bind_ok] at h
      cases hxs : xs.mapM f <;> rw [hxs] at h
      · rw [except_bind_error] at h
        cases h
      · rw [except_bind_ok] at h
        cases h
        simp [ih hxs]

theorem getElem?_zipWith_of_lt {α β γ : Type} (f : α → β → γ) (as : List α) (bs : List β)
    (i : ℕ) (ha : i < as.length) (hb : i < bs.length) (da : α) (db : β) :
    (List.zipWith f as bs)[i]? = some (f (as.getD i da) (bs.getD i db)) := by
  rw [List.getElem?_zipWith, List.getElem?_eq_getElem ha, List.getElem?_eq_getElem hb,
    List.getD_eq_getElem _ _ ha, List.getD_eq_getElem _ _ hb]

/-! ### Method-level lemmas -/

theorem spinNe_a (mol : Molecule) : spinNe mol "a" = .ok mol.nelectrons.1 := rfl

theorem spinNe_b (mol : Molecule) : spinNe mol "b" = .ok mol.nelectrons.2 := by
  unfold spinNe
  rw [if_neg (by decide), if_pos rfl]

theorem spinNe_invalid {mol : Molecule} {spin : String} (ha : spin ≠ "a") (hb : spin ≠ "b") :
    spinNe mol spin = .error .notImplementedError := by
  unfold spinNe
  rw [if_neg ha, if_neg hb]

theorem computeFragmentOverlapT_ok {E : EOS} {fragments : Option Frags} {spin : String}
    {ne : ℕ} {r : (Arr × List (ℕ × ℕ × ℕ)) × EOS}
    (hne : spinNe E.molecule spin = .ok ne)
    (h : computeFragmentOverlapT E fragments spin = .ok r) :
    overlapLoop E.part (E.molecule.computeMolecularOrbital spin)
        (fragsOf fragments E.molecule) ne = .ok r.1
      ∧ r.2 = { E with frags := some (fragsOf fragments E.molecule) } := by
  unfold computeFragmentOverlapT at h
  rw [hne, except_bind_ok] at h
  cases hl : overlapLoop E.part (E.molecule.computeMolecularOrbital spin)
      (fragsOf fragments E.molecule) ne <;> rw [hl] at h
  · rw [except_bind_error] at h
    cases h
  · rw [except_bind_ok] at h
    cases h
    exact ⟨rfl, rfl⟩

theorem computeFragmentOverlapT_invalid {E : EOS} {fragments : Option Frags} {spin : String}
    (ha : spin ≠ "a") (hb : spin ≠ "b") :
    computeFragmentOverlapT E fragments spin = .error .notImplementedError := by
  unfold computeFragmentOverlapT
  rw [spinNe_invalid ha hb, except_bind_error]

theorem computeFragmentOverlap_invalid {E : EOS} {fragments : Option Frags} {spin : String}
    (ha : spin ≠ "a") (hb : spin ≠ "b") :
    computeFragmentOverlap E fragments spin = .error .notImplementedError := by
  unfold computeFragmentOverlap
  rw [computeFragmentOverlapT_invalid ha hb, except_map_error]

theorem computeFragmentOverlap_ok {E : EOS} {fragments : Option Frags} {spin : String}
    {arr : Arr} {E' : EOS}
    (h : computeFragmentOverlap E fragments spin = .ok (arr, E')) :
    ∃ tr, computeFragmentOverlapT E fragments spin = .ok ((arr, tr), E') := by
  unfold computeFragmentOverlap at h
  cases ht : computeFragmentOverlapT E fragments spin with
  | error e =>
    rw [ht, except_map_error] at h
    cases h
  | ok val =>
    rw [ht, except_map_ok] at h
    cases h
    exact ⟨val.1.2, rfl⟩

theorem computeFragmentOverlap_ok_spec {E : EOS} {fragments : Option Frags} {spin : String}
    {arr : Arr} {E' : EOS} {ne : ℕ}
    (hne : spinNe E.molecule spin = .ok ne)
    (h : computeFragmentOverlap E fragments spin = .ok (arr, E')) :
    Dims arr (fragsOf fragments E.molecule).length ne ∧ SymA arr
      ∧ E' = { E with frags := some (fragsOf fragments E.molecule) } := by
  obtain ⟨tr, hT⟩ := computeFragmentOverlap_ok h
  obtain ⟨hl, hE⟩ := computeFragmentOverlapT_ok hne hT
  have hspec := overlapLoop_ok_spec hl
  exact ⟨hspec.1.1, hspec.1.2, hE⟩

theorem computeFragmentOccupation_ok {svd : List (List ℚ) → List ℚ} {E : EOS}
    {fragments : Option Frags} {spin : String} {s : List (List ℚ)} {E' : EOS}
    (h : computeFragmentOccupation svd E fragments spin = .ok (s, E')) :
    ∃ arr, computeFragmentOverlap E fragments spin = .ok (arr, E') ∧ s = arr.map svd := by
  unfold computeFragmentOccupation at h
  cases ho : computeFragmentOverlap E fragments spin with
  | error e =>
    rw [ho, except_bind_error] at h
    cases h
  | ok val =>
    rw [ho, except_bind_ok] at h
    cases h
    exact ⟨val.1, rfl, rfl⟩

theorem computeFragmentOccupation_eq_ok {svd : List (List ℚ) → List ℚ} {E : EOS}
    {fragments : Option Frags} {spin : String} {arr : Arr} {E' : EOS}
    (h : computeFragmentOverlap E fragments spin = .ok (arr, E')) :
    computeFragmentOccupation svd E fragments spin = .ok (arr.map svd, E') := by
  unfold computeFragmentOccupation
  rw [h, except_bind_ok]
  rfl

theorem computeFragmentOccupation_invalid {svd : List (List ℚ) → List ℚ} {E : EOS}
    {fragments : Option Frags} {spin : String} (ha : spin ≠ "a") (hb : spin ≠ "b") :
    computeFragmentOccupation svd E fragments spin = .error .notImplementedError := by
  unfold computeFragmentOccupation
  rw [computeFragmentOverlap_invalid ha hb, except_bind_error]

theorem except_bind_congr {ε α β : Type} {x : Except ε α} {f g : α → Except ε β}
    (h : ∀ a, x = .ok a → f a = g a) : (x >>= f) = (x >>= g) := by
  cases x with
  | error e => rfl
  | ok a => exact h a rfl

theorem computeOxidationState_eq (svd : List (List ℚ) → List ℚ) (E : EOS)
    (fragments : Option Frags) :
    computeOxidationState svd E fragments =
      computeFragmentOccupation svd E fragments "a" >>= fun ra =>
        computeFragmentOccupation svd ra.2 fragments "b" >>= fun rb =>
          oxidationFromOccupations rb.2.molecule.numbers E.molecule.nelectrons.1
            E.molecule.nelectrons.2 ra.1 rb.1 (rb.2.frags.getD []) := rfl

theorem count_map_inj {α β : Type} [BEq α] [LawfulBEq α] [BEq β] [LawfulBEq β]
    (f : α → β) (hf : ∀ a b, f a = f b → a = b) :
    ∀ (l : List α) (x : α), (l.map f).count (f x) = l.count x := by
  intro l
  induction l with
  | nil => intro x; rfl
  | cons y ys ih =>
    intro x
    rw [List.map_cons, List.count_cons, List.count_cons, ih]
    congr 1
    by_cases hxy : y = x
    · rw [if_pos (beq_iff_eq.2 (congrArg f hxy)), if_pos (beq_iff_eq.2 hxy)]
    · rw [if_neg fun hb => hxy (hf _ _ (eq_of_beq hb)), if_neg fun hb => hxy (eq_of_beq hb)]

theorem length_occsFrag (occs : List ℕ) (n F : ℕ) : (occsFrag occs n F).length = F := by
  unfold occsFrag
  rw [List.length_map, List.length_range]

theorem getD_zip_of_lt {α β : Type} (as : List α) (bs : List β) (i : ℕ)
    (ha : i < as.length) (hb : i < bs.length) (da : α) (db : β) :
    (as.zip bs).getD i (da, db) = (as.getD i da, bs.getD i db) := by
  rw [List.zip_eq_zipWith, List.getD_eq_getElem?_getD,
    getElem?_zipWith_of_lt Prod.mk as bs i ha hb da db]
  rfl

theorem pyGet_take {α : Type} (l : List α) (n i : ℕ) (h : i < n) :
    pyGet (l.take n) i = pyGet l i := by
  unfold pyGet
  rw [List.getElem?_take, if_pos h]

theorem overlapLoop_error {part : DensPart} {orbitals : List GridField} {frags : Frags}
    {ne : ℕ} : ∀ e, overlapLoop part orbitals frags ne = .error e → e = .indexError := by
  intro e h
  unfold overlapLoop at h
  exact foldlM_error_val _ PyErr.indexError _
    (fun a b e' _ hstep => overlapStep_error e' hstep) _ e h

/-! ### Claim theorems -/

/-- C1: for every spin channel with declared electron count `N`, every
non-empty fragment list (`F` fragments), and per-fragment occupation arrays
of length `N` each (NaN-free holds by construction over `ℚ`), the
per-fragment assignment counts of `compute_oxidation_state` (lines 136,
153, 156-157, embedded as `occsFrag` over the ranked flattened list and
used by `oxidationFromOccupations`) sum to exactly `N`. -/
theorem C1_counts_sum (s : List (List ℚ)) (N F : ℕ)
    (hF : s.length = F) (hpos : 0 < F) (hrow : ∀ row ∈ s, row.length = N) :
    (occsFrag ((sortedDesc (flattenEnum s)).map Prod.snd) N F).sum = N := by
  unfold occsFrag
  have hmem : ∀ x ∈ ((sortedDesc (flattenEnum s)).map Prod.snd).take N, x < F := by
    intro x hx
    have hx' := List.mem_of_mem_take hx
    rw [List.mem_map] at hx'
    obtain ⟨p, hp, rfl⟩ := hx'
    rw [← hF]
    exact mem_sortedDesc_snd_lt hp
  rw [sum_counts_eq_length F _ hmem, List.length_take]
  have hlen : ((sortedDesc (flattenEnum s)).map Prod.snd).length = F * N := by
    rw [List.length_map]
    unfold sortedDesc
    rw [List.length_insertionSort, length_flattenEnum hrow, hF]
  rw [hlen]
  exact min_eq_left (Nat.le_mul_of_pos_left N hpos)

/-- Witness for C1 at a concrete input: one fragment, one occupation value. -/
theorem C1_counts_sum_witness :
    (occsFrag ((sortedDesc (flattenEnum [[(1:ℚ)]])).map Prod.snd) 1 1).sum = 1 :=
  C1_counts_sum [[(1:ℚ)]] 1 1 rfl (by decide) (by decide)

/-- Counterexample to C2 as stated: two fragments with one occupation value
`1` each.  The flattened enumeration-order list is `[(1,0), (1,1)]`, but the
ranked list produced by line 136 (`sorted(..., reverse=True)` on tuples,
embedded as `sortedDesc`) is `[(1,1), (1,0)]`: the two equal-valued pairs
appear in *descending* fragment order, not in enumeration order. -/
theorem C2_cex :
    flattenEnum [[(1:ℚ)], [1]] = [(1, 0), (1, 1)]
      ∧ sortedDesc (flattenEnum [[(1:ℚ)], [1]]) = [(1, 1), (1, 0)] := by
  constructor
  · decide
  · decide

/-- C2 amended: the ranked list of line 136 is the flattened (value,
fragment-id) list sorted by descending lexicographic tuple order — strictly
descending in value, and pairs of equal value ordered by descending
fragment index; it is a permutation of the flattened list. -/
theorem C2_amended_sort_order (s : List (List ℚ)) :
    (sortedDesc (flattenEnum s)).Sorted geLexQN
      ∧ (sortedDesc (flattenEnum s)).Perm (flattenEnum s) :=
  ⟨List.sorted_insertionSort geLexQN _, List.perm_insertionSort geLexQN _⟩

/-- C6: for every spin argument outside the accepted tags `'a'`/`'b'`,
`compute_fragment_overlap` raises (`NotImplementedError`, the module's
invalid-argument failure) before performing any computation — the
instrumented variant shows no condensation call is made — and never
substitutes a default spin (the result is the error, never a value). -/
theorem C6_invalid_spin_fails (E : EOS) (fragments : Option Frags) (spin : String)
    (ha : spin ≠ "a") (hb : spin ≠ "b") :
    computeFragmentOverlap E fragments spin = .error .notImplementedError
      ∧ computeFragmentOverlapT E fragments spin = .error .notImplementedError :=
  ⟨computeFragmentOverlap_invalid ha hb, computeFragmentOverlapT_invalid ha hb⟩

/-- Witness for C6 at the concrete spin tag `"ab"`. -/
theorem C6_invalid_spin_fails_witness :
    (("ab" ≠ "a") ∧ ("ab" ≠ "b"))
      ∧ computeFragmentOverlap EC none "ab" = .error .notImplementedError
      ∧ computeFragmentOverlapT EC none "ab" = .error .notImplementedError :=
  ⟨⟨by decide, by decide⟩,
    (C6_invalid_spin_fails EC none "ab" (by decide) (by decide)).1,
    (C6_invalid_spin_fails EC none "ab" (by decide) (by decide)).2⟩

/-- C8: omitting the fragment partition is identical to explicitly passing
one singleton fragment per atom in atom-index order (`defaultFrags`), for
`compute_fragment_overlap`, `compute_fragment_occupation` and
`compute_oxidation_state`; and the result of an omitted-partition call does
not depend on whatever `self._frags` value an earlier call stored. -/
theorem C8_default_partition (E : EOS) (spin : String) (svd : List (List ℚ) → List ℚ) :
    computeFragmentOverlap E none spin
        = computeFragmentOverlap E (some (defaultFrags E.molecule)) spin
      ∧ computeFragmentOccupation svd E none spin
        = computeFragmentOccupation svd E (some (defaultFrags E.molecule)) spin
      ∧ computeOxidationState svd E none
        = computeOxidationState svd E (some (defaultFrags E.molecule))
      ∧ ∀ p, computeFragmentOverlap { E with frags := p } none spin
          = computeFragmentOverlap E none spin := by
  refine ⟨rfl, rfl, ?_, fun _ => rfl⟩
  rw [computeOxidationState_eq, computeOxidationState_eq]
  have h1 : computeFragmentOccupation svd E none "a"
      = computeFragmentOccupation svd E (some (defaultFrags E.molecule)) "a" := rfl
  rw [h1]
  refine except_bind_congr fun ra hra => ?_
  have hra' : computeFragmentOccupation svd E (some (defaultFrags E.molecule)) "a"
      = .ok (ra.1, ra.2) := by rw [hra]
  obtain ⟨arr, ho, -⟩ := computeFragmentOccupation_ok hra'
  obtain ⟨tr, hT⟩ := computeFragmentOverlap_ok ho
  obtain ⟨-, hE⟩ := computeFragmentOverlapT_ok (spinNe_a E.molecule) hT
  have hmol : ra.2.molecule = E.molecule := by rw [hE]
  have h2 : computeFragmentOccupation svd ra.2 none "b"
      = computeFragmentOccupation svd ra.2 (some (defaultFrags E.molecule)) "b" := by
    rw [← hmol]
    rfl
  show computeFragmentOccupation svd ra.2 none "b" >>= (fun rb =>
      oxidationFromOccupations rb.2.molecule.numbers E.molecule.nelectrons.1
        E.molecule.nelectrons.2 ra.1 rb.1 (rb.2.frags.getD []))
    = computeFragmentOccupation svd ra.2 (some (defaultFrags E.molecule)) "b" >>= (fun rb =>
      oxidationFromOccupations rb.2.molecule.numbers E.molecule.nelectrons.1
        E.molecule.nelectrons.2 ra.1 rb.1 (rb.2.frags.getD []))
  rw [h2]

/-- C10: the default spin value `'ab'` (line 76/105) is outside the accepted
set `{'a', 'b'}`, so every call of `compute_fragment_overlap` or
`compute_fragment_occupation` that omits the spin argument raises
`NotImplementedError`: no combined-spin computation is reachable. -/
theorem C10_default_spin_raises (svd : List (List ℚ) → List ℚ) (E : EOS)
    (fragments : Option Frags) :
    computeFragmentOverlap E fragments defaultSpin = .error .notImplementedError
      ∧ computeFragmentOccupation svd E fragments defaultSpin = .error .notImplementedError :=
  ⟨computeFragmentOverlap_invalid (by decide) (by decide),
    computeFragmentOccupation_invalid (by decide) (by decide)⟩

/-- C3 (code bug, evaluation at the failing input): for the concrete
two-singleton-fragment input, the live code (line 160 and the final
`return oxidation`) yields the flat signed array `[1, -1]` — one bare
integer per fragment with no fragment-index pairing.  The repository's own
tests (`test_oxidation.py`) assert index-paired rows such as
`[[-2.0, 0], [1, 1], [1, 2]]`, the format of the commented-out line 236. -/
theorem C3_flat_output :
    computeOxidationState svdC EC (some [[0], [1]]) = .ok [1, -1] := by decide

/-- C4: for every fragment list and accepted spin tag with declared
electron count `ne` (hypothesis `spinNe ... = .ok ne`), a successful run of
`compute_fragment_overlap` (instrumented as `computeFragmentOverlapT`)
calls `condense_to_fragments` exactly once per unordered orbital pair
`i ≤ j < ne` — the recorded call list is exactly
`combinations_with_replacement(range(ne), 2)`, of length `ne(ne+1)/2`,
every call with `w_power = 2` — and every returned fragment matrix is
exactly symmetric. -/
theorem C4_pair_calls_and_symmetry (E : EOS) (fragments : Option Frags) (spin : String)
    (ne : ℕ) (r : (Arr × List (ℕ × ℕ × ℕ)) × EOS)
    (hne : spinNe E.molecule spin = .ok ne)
    (hok : computeFragmentOverlapT E fragments spin = .ok r) :
    r.1.2 = ((cwr2 ne).map fun p => (p.1, p.2, 2))
      ∧ r.1.2.length = ne * (ne + 1) / 2
      ∧ (∀ i j, i ≤ j → j < ne → r.1.2.count (i, j, 2) = 1)
      ∧ (∀ c ∈ r.1.2, c.2.2 = 2)
      ∧ (∀ M ∈ r.1.1, ∀ a b, entry M a b = entry M b a) := by
  obtain ⟨hl, -⟩ := computeFragmentOverlapT_ok hne hok
  have hl' : overlapLoop E.part (E.molecule.computeMolecularOrbital spin)
      (fragsOf fragments E.molecule) ne = .ok (r.1.1, r.1.2) := by rw [hl]
  obtain ⟨⟨hdims, hsym⟩, htr⟩ := overlapLoop_ok_spec hl'
  refine ⟨htr, ?_, ?_, ?_, ?_⟩
  · rw [htr, List.length_map, length_cwr2]
  · intro i j hij hj
    rw [htr]
    have hinj : ∀ a b : ℕ × ℕ, (a.1, a.2, (2:ℕ)) = (b.1, b.2, (2:ℕ)) → a = b := by
      intro a b hab
      rw [Prod.mk.injEq, Prod.mk.injEq] at hab
      rcases a with ⟨a1, a2⟩
      rcases b with ⟨b1, b2⟩
      rw [Prod.mk.injEq]
      exact ⟨hab.1, hab.2.1⟩
    have := count_map_inj (fun p : ℕ × ℕ => (p.1, p.2, (2:ℕ))) hinj (cwr2 ne) (i, j)
    rw [this, count_cwr2 hij hj]
  · intro c hc
    rw [htr, List.mem_map] at hc
    obtain ⟨p, -, rfl⟩ := hc
    rfl
  · intro M hM a b
    obtain ⟨x, hx, hxM⟩ := List.getElem_of_mem hM
    have hx' := hsym x a b
    unfold entryA at hx'
    rw [List.getD_eq_getElem _ _ hx, hxM] at hx'
    exact hx'

/-- Witness for C4 at a concrete input: one declared alpha electron, one
orbital, two singleton fragments; the recorded call list is `[(0, 0, 2)]`. -/
theorem C4_pair_calls_and_symmetry_witness :
    (([((0:ℕ), (0:ℕ), (2:ℕ))] : List (ℕ × ℕ × ℕ))
        = ((cwr2 1).map fun p => (p.1, p.2, 2))) :=
  (C4_pair_calls_and_symmetry EC (some [[0], [1]]) "a" 1
    (([[[1]], [[1]]], [(0, 0, 2)]), ECdone) rfl rfl).1

/-- C9: for every fragment list and accepted spin tag with declared
electron count `ne`, a successful `compute_fragment_occupation` returns
one array per fragment, and — by the documented contract of the external
singular-value routine (`np.linalg.svd` returns, per matrix, its singular
values: as many as the matrix has rows, non-negative, in descending
order) — each array has length `ne`, is entrywise non-negative and is
sorted non-increasingly. -/
theorem C9_occupation_shape (svd : List (List ℚ) → List ℚ) (E : EOS)
    (fragments : Option Frags) (spin : String) (ne : ℕ) (s : List (List ℚ)) (E' : EOS)
    (hne : spinNe E.molecule spin = .ok ne)
    (hok : computeFragmentOccupation svd E fragments spin = .ok (s, E'))
    (hlen : ∀ M, (svd M).length = M.length)
    (hnn : ∀ M, ∀ v ∈ svd M, 0 ≤ v)
    (hsort : ∀ M, (svd M).Sorted (· ≥ ·)) :
    s.length = (fragsOf fragments E.molecule).length
      ∧ ∀ row ∈ s, row.length = ne ∧ (∀ v ∈ row, 0 ≤ v) ∧ row.Sorted (· ≥ ·) := by
  obtain ⟨arr, ho, hs⟩ := computeFragmentOccupation_ok hok
  obtain ⟨⟨hF, hMdims⟩, -, -⟩ := computeFragmentOverlap_ok_spec hne ho
  subst hs
  refine ⟨by rw [List.length_map, hF], fun row hrow => ?_⟩
  rw [List.mem_map] at hrow
  obtain ⟨M, hM, rfl⟩ := hrow
  exact ⟨by rw [hlen M, (hMdims M hM).1], hnn M, hsort M⟩

/-- Witness for C9 at a concrete input, with a concrete singular-value
routine satisfying the contract. -/
theorem C9_occupation_shape_witness :
    ([[(1:ℚ)], [1]] : List (List ℚ)).length = (fragsOf (some [[0], [1]]) molC).length :=
  (C9_occupation_shape svdC EC (some [[0], [1]]) "a" 1 [[1], [1]] ECdone rfl rfl
    (fun M => List.length_replicate _ _)
    (fun M v hv => by rw [List.eq_of_mem_replicate hv]; exact zero_le_one)
    (fun M => List.pairwise_replicate.2 (Or.inr (le_refl _)))).1

/-- C5: given the results of the two per-spin occupation runs and the
per-fragment nuclear-charge sums (lines 159-160), the `i`-th value of
`compute_oxidation_state` equals the summed nuclear charges of the `i`-th
fragment minus that fragment's alpha assignment count minus its beta
assignment count. -/
theorem C5_oxidation_values (svd : List (List ℚ) → List ℚ) (E : EOS)
    (fragments : Option Frags) (ra rb : List (List ℚ) × EOS) (zs : List ℕ)
    (ox : List ℤ) (i : ℕ)
    (ha : computeFragmentOccupation svd E fragments "a" = .ok ra)
    (hb : computeFragmentOccupation svd ra.2 fragments "b" = .ok rb)
    (hz : (rb.2.frags.getD []).mapM
        (fun frag => (frag.mapM (pyGet rb.2.molecule.numbers)).map List.sum) = .ok zs)
    (hok : computeOxidationState svd E fragments = .ok ox)
    (hi : i < (rb.2.frags.getD []).length) :
    ox[i]? = some ((zs.getD i 0 : ℤ)
      - (occsFrag ((sortedDesc (flattenEnum ra.1)).map Prod.snd) E.molecule.nelectrons.1
          (rb.2.frags.getD []).length).getD i 0
      - (occsFrag ((sortedDesc (flattenEnum rb.1)).map Prod.snd) E.molecule.nelectrons.2
          (rb.2.frags.getD []).length).getD i 0) := by
  rw [computeOxidationState_eq, ha, except_bind_ok] at hok
  have hok2 : (computeFragmentOccupation svd ra.2 fragments "b" >>= fun rb' =>
      oxidationFromOccupations rb'.2.molecule.numbers E.molecule.nelectrons.1
        E.molecule.nelectrons.2 ra.1 rb'.1 (rb'.2.frags.getD [])) = .ok ox := hok
  rw [hb, except_bind_ok] at hok2
  have hok3 : oxidationFromOccupations rb.2.molecule.numbers E.molecule.nelectrons.1
      E.molecule.nelectrons.2 ra.1 rb.1 (rb.2.frags.getD []) = .ok ox := hok2
  unfold oxidationFromOccupations at hok3
  rw [hz, except_bind_ok] at hok3
  have hox : ox = List.zipWith (fun (z : ℕ) (ab : ℕ × ℕ) => (z : ℤ) - (ab.1 : ℤ) - (ab.2 : ℤ)) zs
      ((occsFrag ((sortedDesc (flattenEnum ra.1)).map Prod.snd) E.molecule.nelectrons.1
          (rb.2.frags.getD []).length).zip
        (occsFrag ((sortedDesc (flattenEnum rb.1)).map Prod.snd) E.molecule.nelectrons.2
          (rb.2.frags.getD []).length)) := (Except.ok.inj hok3).symm
  subst hox
  have hzs : zs.length = (rb.2.frags.getD []).length := mapM_ok_length hz
  have hA := length_occsFrag ((sortedDesc (flattenEnum ra.1)).map Prod.snd)
    E.molecule.nelectrons.1 (rb.2.frags.getD []).length
  have hB := length_occsFrag ((sortedDesc (flattenEnum rb.1)).map Prod.snd)
    E.molecule.nelectrons.2 (rb.2.frags.getD []).length
  rw [getElem?_zipWith_of_lt _ _ _ i (by omega) (by rw [List.length_zip]; omega) 0 (0, 0),
    getD_zip_of_lt _ _ i (by omega) (by omega) 0 0]

/-- Witness for C5 at a concrete input: two singleton fragments, both with
oxidation value determined by charge 1 and assignment counts (0, 0) for
fragment 0. -/
theorem C5_oxidation_values_witness :
    ([(1:ℤ), -1] : List ℤ)[0]? = some ((([1, 1] : List ℕ).getD 0 0 : ℤ)
      - (occsFrag ((sortedDesc (flattenEnum [[(1:ℚ)], [1]])).map Prod.snd) 1
          ((ECdone.frags.getD []).length)).getD 0 0
      - (occsFrag ((sortedDesc (flattenEnum [[(1:ℚ)], [1]])).map Prod.snd) 1
          ((ECdone.frags.getD []).length)).getD 0 0) :=
  C5_oxidation_values svdC EC (some [[0], [1]]) ([[1], [1]], ECdone) ([[1], [1]], ECdone)
    [1, 1] [1, -1] 0 rfl rfl rfl rfl (by decide)

/-- Counterexample to C7 as stated: a concrete object whose orbital
provider returns two orbitals for spin `'a'` although only one alpha
electron is declared.  `compute_fragment_overlap` does not fail — it
succeeds, silently using only the first orbital (the returned tensor is
the one computed from orbital pair `(0,0)` alone). -/
theorem C7_cex :
    (EC2.molecule.computeMolecularOrbital "a").length = 2
      ∧ EC2.molecule.nelectrons.1 = 1
      ∧ (computeFragmentOverlap EC2 (some [[0]]) "a").toOption.map Prod.fst
          = some [[[1]]] := by
  refine ⟨rfl, rfl, ?_⟩
  decide

/-- C7 amended: `compute_fragment_overlap` performs no orbital-count
validation.  (1) The returned tensor depends only on the first `ne`
orbitals, so surplus orbitals beyond the declared electron count are
silently ignored.  (2) When the provider returns fewer than `ne` orbitals,
the call fails with an `IndexError` raised from inside the condensation
loop — there is no pre-loop check. -/
theorem C7_amended_no_validation (E : EOS) (fragments : Option Frags) (spin : String)
    (ne : ℕ) (hne : spinNe E.molecule spin = .ok ne) :
    ((computeFragmentOverlap E fragments spin).toOption.map Prod.fst
        = (computeFragmentOverlap (truncOrbitals E ne) fragments spin).toOption.map Prod.fst)
      ∧ ((E.molecule.computeMolecularOrbital spin).length < ne →
          computeFragmentOverlap E fragments spin = .error .indexError) := by
  have horbs : overlapLoop E.part ((E.molecule.computeMolecularOrbital spin).take ne)
      (fragsOf fragments E.molecule) ne
      = overlapLoop E.part (E.molecule.computeMolecularOrbital spin)
        (fragsOf fragments E.molecule) ne := by
    unfold overlapLoop
    refine foldlM_congr (fun acc p hp => ?_) _
    rw [mem_cwr2] at hp
    unfold overlapStep
    rw [pyGet_take _ _ _ (lt_of_le_of_lt hp.1 hp.2), pyGet_take _ _ _ hp.2]
  have hR : computeFragmentOverlap E fragments spin
      = (overlapLoop E.part (E.molecule.computeMolecularOrbital spin)
          (fragsOf fragments E.molecule) ne >>= fun r =>
          pure (r, { E with frags := some (fragsOf fragments E.molecule) })).map
        fun r => (r.1.1, r.2) := by
    unfold computeFragmentOverlap computeFragmentOverlapT
    rw [hne, except_bind_ok]
  constructor
  · have hL : computeFragmentOverlap (truncOrbitals E ne) fragments spin
        = (overlapLoop E.part ((E.molecule.computeMolecularOrbital spin).take ne)
            (fragsOf fragments E.molecule) ne >>= fun r =>
            pure (r, { truncOrbitals E ne with
              frags := some (fragsOf fragments E.molecule) })).map
          fun r => (r.1.1, r.2) := by
      unfold computeFragmentOverlap computeFragmentOverlapT
      rw [show spinNe (truncOrbitals E ne).molecule spin = .ok ne from hne, except_bind_ok]
      rfl
    rw [hR, hL, horbs]
    cases overlapLoop E.part (E.molecule.computeMolecularOrbital spin)
        (fragsOf fragments E.molecule) ne with
    | error e => rfl
    | ok v => rfl
  · intro hshort
    have hnotok : ¬ ∃ r, overlapLoop E.part (E.molecule.computeMolecularOrbital spin)
        (fragsOf fragments E.molecule) ne = .ok r := by
      rintro ⟨r, hr⟩
      unfold overlapLoop at hr
      have hiff := foldlM_ok_iff
        (overlapStep E.part (E.molecule.computeMolecularOrbital spin)
          (fragsOf fragments E.molecule))
        (fun p => p.1 < (E.molecule.computeMolecularOrbital spin).length
          ∧ p.2 < (E.molecule.computeMolecularOrbital spin).length
          ∧ (fragsOf fragments E.molecule).length ≤ (E.part.condense_to_fragments
              (List.zipWith (· * ·) ((E.molecule.computeMolecularOrbital spin).getD p.1 [])
                ((E.molecule.computeMolecularOrbital spin).getD p.2 []))
              (fragsOf fragments E.molecule) 2).length)
        (cwr2 ne)
        (fun a p _ => overlapStep_ok_iff E.part _ _ a p)
        (List.replicate (fragsOf fragments E.molecule).length
          (List.replicate ne (List.replicate ne (0 : ℚ))), [])
      have hall := hiff.1 ⟨r, hr⟩
      have hp := hall (0, ne - 1) (mem_cwr2.2 ⟨by omega, by omega⟩)
      have := hp.2.1
      omega
    cases hl : overlapLoop E.part (E.molecule.computeMolecularOrbital spin)
        (fragsOf fragments E.molecule) ne with
    | ok r => exact absurd ⟨r, hl⟩ hnotok
    | error e =>
      have he := overlapLoop_error e hl
      subst he
      rw [hR, hl]
      rfl

/-- Witness for the amended C7 at a concrete input: an object whose
orbital provider returns no orbitals although one alpha electron is
declared; the call fails with the in-loop index error. -/
theorem C7_amended_no_validation_witness :
    computeFragmentOverlap EC0 (some [[0]]) "a" = .error .indexError :=
  (C7_amended_no_validation EC0 (some [[0]]) "a" 1 rfl).2 (by decide)

end ChemTools
